import Mathlib

/-!
Shallow embedding of the `wetype-hotwords` recovery tool
(`wetype_raw.py`, `wetype_rw.py`, `wetype_tool.py`).

The tool scans a raw MMKV store file for every occurrence of the key
`hotWordList`, extracts a bracket-balanced span after each occurrence,
decodes it with the JSON codec, keeps the candidates that pass a
validity check, and selects the longest decoded list.  Mutations
(add / delete) operate on the selected list and re-encode it with the
JSON codec.

The JSON codec (`json.loads` / `json.dumps(..., ensure_ascii=False)`)
is Python standard-library code, external to the repository; it is
modelled here faithfully from the documented JSON grammar and the
encoder's escaping table, with one deliberate restriction: numbers are
modelled as integers (ids and timestamps in this store are integers or
strings; IEEE floats are outside the embedding).
-/

namespace Wetype

/-- JSON values as manipulated by the tool.  Objects keep their fields
in insertion order, as Python dicts do; numbers are integers. -/
inductive JVal where
  | null : JVal
  | bool : Bool → JVal
  | num : Int → JVal
  | str : String → JVal
  | arr : List JVal → JVal
  | obj : List (String × JVal) → JVal
  deriving Inhabited

/-- The double-quote character. -/
def qt : Char := Char.ofNat 34

/-- The backslash character. -/
def bsl : Char := Char.ofNat 92

/-- The opening curly brace character. -/
def lcb : Char := Char.ofNat 123

/-- The closing curly brace character. -/
def rcb : Char := Char.ofNat 125

/-- Decimal digit character for `n < 10`. -/
def digitChar (n : Nat) : Char := Char.ofNat (48 + n)

/-- Decimal digits of a natural number, most significant first
(Python `repr` of a non-negative int). -/
def natChars (n : Nat) : List Char :=
  if _h : n < 10 then [digitChar n]
  else natChars (n / 10) ++ [digitChar (n % 10)]
termination_by n
decreasing_by exact Nat.div_lt_self (by omega) (by omega)

/-- Python `repr` of an int: optional minus sign followed by digits. -/
def intChars : Int → List Char
  | .ofNat n => natChars n
  | .negSucc n => Char.ofNat 45 :: natChars (n + 1)

/-- Lowercase hexadecimal digit character for `n < 16`. -/
def hexChar (n : Nat) : Char :=
  if n < 10 then Char.ofNat (48 + n) else Char.ofNat (87 + n)

/-- How `json.dumps(..., ensure_ascii=False)` renders one character of
a string: the two-character escapes of the encoder's escape table,
`\u00xx` for other control characters, and the character itself
otherwise (non-ASCII characters are emitted raw). -/
def dumpChar (c : Char) : List Char :=
  if c = qt then [bsl, qt]
  else if c = bsl then [bsl, bsl]
  else if c = Char.ofNat 8 then [bsl, 'b']
  else if c = Char.ofNat 12 then [bsl, 'f']
  else if c = '\n' then [bsl, 'n']
  else if c = Char.ofNat 13 then [bsl, 'r']
  else if c = '\t' then [bsl, 't']
  else if c.toNat < 32 then
    [bsl, 'u', '0', '0', hexChar (c.toNat / 16), hexChar (c.toNat % 16)]
  else [c]

/-- Escaped body of a JSON string literal. -/
def dumpStrBody : List Char → List Char
  | [] => []
  | c :: cs => dumpChar c ++ dumpStrBody cs

/-- A JSON string literal: escaped body between double quotes. -/
def dumpStr (s : String) : List Char := qt :: dumpStrBody s.data ++ [qt]

mutual

/-- `json.dumps(v, ensure_ascii=False)` (default separators
`", "` and `": "`), as a character list. -/
def dumpsV : JVal → List Char
  | .null => "null".data
  | .bool true => "true".data
  | .bool false => "false".data
  | .num n => intChars n
  | .str s => dumpStr s
  | .arr es => '[' :: dumpsElems es ++ [']']
  | .obj fs => lcb :: dumpsFields fs ++ [rcb]

/-- Array elements rendered with the `", "` separator. -/
def dumpsElems : List JVal → List Char
  | [] => []
  | [v] => dumpsV v
  | v :: vs => dumpsV v ++ ',' :: ' ' :: dumpsElems vs

/-- Object fields rendered with the `": "` and `", "` separators. -/
def dumpsFields : List (String × JVal) → List Char
  | [] => []
  | [(k, v)] => dumpStr k ++ ':' :: ' ' :: dumpsV v
  | (k, v) :: fs => dumpStr k ++ ':' :: ' ' :: dumpsV v ++ ',' :: ' ' :: dumpsFields fs

end

/-- `json.dumps(v, ensure_ascii=False)` as a `String`. -/
def jsonDumps (v : JVal) : String := String.mk (dumpsV v)

/-- `matchesAt needle hay`: does `needle` occur at the start of `hay`? -/
def matchesAt : List Char → List Char → Bool
  | [], _ => true
  | _ :: _, [] => false
  | a :: as, b :: bs => a = b && matchesAt as bs

/-- JSON insignificant whitespace: space, tab, newline, carriage return. -/
def isJsonWs (c : Char) : Bool :=
  c = ' ' || c = '\t' || c = '\n' || c = Char.ofNat 13

/-- Drop leading JSON whitespace. -/
def skipWs (cs : List Char) : List Char := cs.dropWhile isJsonWs

/-- Value of one (case-insensitive) hexadecimal digit. -/
def hexVal (c : Char) : Option Nat :=
  if 48 ≤ c.toNat ∧ c.toNat ≤ 57 then some (c.toNat - 48)
  else if 97 ≤ c.toNat ∧ c.toNat ≤ 102 then some (c.toNat - 87)
  else if 65 ≤ c.toNat ∧ c.toNat ≤ 70 then some (c.toNat - 55)
  else none

/-- Four hexadecimal digits, as in a `\uXXXX` escape. -/
def parseHex4 : List Char → Option (Nat × List Char)
  | h1 :: h2 :: h3 :: h4 :: rest =>
    match hexVal h1, hexVal h2, hexVal h3, hexVal h4 with
    | some x1, some x2, some x3, some x4 =>
      some (((x1 * 16 + x2) * 16 + x3) * 16 + x4, rest)
    | _, _, _, _ => none
  | _ => none

/-- A `\uXXXX` escape body (after `\u`): a plain scalar, or a
surrogate pair combined into one code point.  A lone surrogate escape
is rejected here (Python would produce a surrogate code unit, which
has no `Char` counterpart). -/
def parseUEsc (rest : List Char) : Option (Char × List Char) :=
  match parseHex4 rest with
  | none => none
  | some (n, rest3) =>
    if 0xD800 ≤ n ∧ n ≤ 0xDBFF then
      match rest3 with
      | b1 :: u1 :: tail =>
        if b1 = bsl ∧ u1 = 'u' then
          match parseHex4 tail with
          | none => none
          | some (m, rest4) =>
            if 0xDC00 ≤ m ∧ m ≤ 0xDFFF then
              some (Char.ofNat (0x10000 + (n - 0xD800) * 0x400 + (m - 0xDC00)), rest4)
            else none
        else none
      | _ => none
    else if 0xDC00 ≤ n ∧ n ≤ 0xDFFF then none
    else some (Char.ofNat n, rest3)

/-- One escape sequence after the backslash: the named escapes of the
JSON grammar, or a `\uXXXX` escape. -/
def parseEsc : List Char → Option (Char × List Char)
  | [] => none
  | e :: rest2 =>
    if e = qt then some (qt, rest2)
    else if e = bsl then some (bsl, rest2)
    else if e = '/' then some ('/', rest2)
    else if e = 'b' then some (Char.ofNat 8, rest2)
    else if e = 'f' then some (Char.ofNat 12, rest2)
    else if e = 'n' then some ('\n', rest2)
    else if e = 'r' then some (Char.ofNat 13, rest2)
    else if e = 't' then some ('\t', rest2)
    else if e = 'u' then parseUEsc rest2
    else none

/-- Body of a JSON string literal after the opening quote (`json.loads`
semantics, strict mode): stops at the closing quote, resolves escapes,
and rejects raw control characters.  `acc` holds the characters read
so far, in reverse.  The fuel only needs to cover one step per
consumed character; callers pass the remaining input length plus one,
which always suffices. -/
def parseStrAux : Nat → List Char → List Char → Option (String × List Char)
  | 0, _, _ => none
  | _ + 1, _, [] => none
  | fuel + 1, acc, c :: rest =>
    if c = qt then some (String.mk acc.reverse, rest)
    else if c = bsl then
      match parseEsc rest with
      | none => none
      | some (ch, rest2) => parseStrAux fuel (ch :: acc) rest2
    else if c.toNat < 32 then none
    else parseStrAux fuel (c :: acc) rest

/-- Decimal digit test, as the JSON grammar uses it. -/
def isDigitCh (c : Char) : Bool := 48 ≤ c.toNat && c.toNat ≤ 57

/-- Numeric value of a run of decimal digit characters. -/
def digitsVal (ds : List Char) : Nat :=
  ds.foldl (fun a c => 10 * a + (c.toNat - 48)) 0

/-- The digit run of a JSON number after the optional minus sign: a
non-empty digit run with no redundant leading zero; a fraction or
exponent part (an IEEE float in Python) is outside the embedding and
rejected. -/
def parseNumDigits (neg : Bool) (cs1 : List Char) : Option (JVal × List Char) :=
  if (cs1.takeWhile isDigitCh).isEmpty then none
  else if matchesAt ['0'] (cs1.takeWhile isDigitCh)
      && (cs1.takeWhile isDigitCh).length > 1 then none
  else
    match cs1.dropWhile isDigitCh with
    | c :: r =>
      if c = '.' ∨ c = 'e' ∨ c = 'E' then none
      else some (.num (if neg then -(digitsVal (cs1.takeWhile isDigitCh) : Int)
                       else (digitsVal (cs1.takeWhile isDigitCh) : Int)), c :: r)
    | [] => some (.num (if neg then -(digitsVal (cs1.takeWhile isDigitCh) : Int)
                        else (digitsVal (cs1.takeWhile isDigitCh) : Int)), [])

/-- JSON number parsing, restricted to the integer fragment of the
model: optional minus sign followed by the digit run. -/
def parseNumber (cs : List Char) : Option (JVal × List Char) :=
  match cs with
  | [] => none
  | c :: t => if c = '-' then parseNumDigits true t else parseNumDigits false (c :: t)

mutual

/-- `json.loads` value parser (fuel-bounded recursion; the fuel passed
by `jsonLoads` is always sufficient, see `parseValue` call depth: at
most three nested calls per consumed character). -/
def parseValue : Nat → List Char → Option (JVal × List Char)
  | 0, _ => none
  | fuel + 1, cs0 =>
    match skipWs cs0 with
    | [] => none
    | c :: rest =>
      if c = '[' then parseElemsStart fuel rest
      else if c = lcb then parseFieldsStart fuel rest
      else if c = qt then
        match parseStrAux (rest.length + 1) [] rest with
        | some (s, r) => some (.str s, r)
        | none => none
      else if c = '-' ∨ isDigitCh c then parseNumber (c :: rest)
      else if matchesAt "true".data (c :: rest) then some (.bool true, (c :: rest).drop 4)
      else if matchesAt "false".data (c :: rest) then some (.bool false, (c :: rest).drop 5)
      else if matchesAt "null".data (c :: rest) then some (.null, (c :: rest).drop 4)
      else none

/-- After `[`: empty array or first element. -/
def parseElemsStart : Nat → List Char → Option (JVal × List Char)
  | 0, _ => none
  | fuel + 1, cs =>
    match skipWs cs with
    | [] => none
    | c :: rest =>
      if c = ']' then some (.arr [], rest)
      else parseElemsLoop fuel [] (c :: rest)

/-- Array elements: value, then `]` to close or `,` to continue. -/
def parseElemsLoop : Nat → List JVal → List Char → Option (JVal × List Char)
  | 0, _, _ => none
  | fuel + 1, acc, cs =>
    match parseValue fuel cs with
    | none => none
    | some (v, rest) =>
      match skipWs rest with
      | [] => none
      | c :: r2 =>
        if c = ']' then some (.arr (acc ++ [v]), r2)
        else if c = ',' then parseElemsLoop fuel (acc ++ [v]) r2
        else none

/-- After the opening brace: empty object or first field. -/
def parseFieldsStart : Nat → List Char → Option (JVal × List Char)
  | 0, _ => none
  | fuel + 1, cs =>
    match skipWs cs with
    | c :: rest =>
      if c = rcb then some (.obj [], rest)
      else parseFieldsLoop fuel [] (c :: rest)
    | [] => none

/-- Object fields: string key, `:`, value, then the closing brace or
`,` to continue. -/
def parseFieldsLoop : Nat → List (String × JVal) → List Char → Option (JVal × List Char)
  | 0, _, _ => none
  | fuel + 1, acc, cs =>
    match skipWs cs with
    | c :: rest =>
      if c = qt then
        match parseStrAux (rest.length + 1) [] rest with
        | none => none
        | some (k, r1) =>
          match skipWs r1 with
          | [] => none
          | c1 :: r2 =>
            if c1 = ':' then
              match parseValue fuel r2 with
              | none => none
              | some (v, r3) =>
                match skipWs r3 with
                | [] => none
                | c2 :: r4 =>
                  if c2 = rcb then some (.obj (acc ++ [(k, v)]), r4)
                  else if c2 = ',' then parseFieldsLoop fuel (acc ++ [(k, v)]) r4
                  else none
            else none
      else none
    | [] => none

end

/-- `json.loads`: parse one value, allow only trailing whitespace.
The fuel `3 * length + 3` bounds the recursion depth of any parse of
the input (at most three nested calls are made per consumed
character), so the bound never cuts a parse short. -/
def jsonLoads (s : String) : Option JVal :=
  match parseValue (3 * s.data.length + 3) s.data with
  | some (v, rest) => if (skipWs rest).isEmpty then some v else none
  | none => none

/-! ## The scanner of `wetype_raw.py` (`read_raw_hotwords`)

The store file's bytes are decoded with `errors='ignore'` into a text;
the embedding starts from that text as a character list. -/

/-- The key marker `hotWordList` scanned for. -/
def keyMarker : List Char := "hotWordList".data

/-- Offsets of every occurrence of the marker
(`re.finditer(r'hotWordList', text)` yields non-overlapping matches in
increasing order; `hotWordList` cannot overlap itself, so those are
exactly all occurrences). -/
def hotwordPositions (text : List Char) : List Nat :=
  (List.range text.length).filter (fun i => matchesAt keyMarker (text.drop i))

/-- `remaining = text[search_start : search_start + 100000]`: the
search window of at most 100000 characters starting right after the
matched marker. -/
def window (text : List Char) (pos : Nat) : List Char :=
  (text.drop (pos + keyMarker.length)).take 100000

/-- The balanced-bracket loop of `read_raw_hotwords`: starting at the
first `[`, track nesting depth; return the exclusive end index of the
span on the `]` that brings the depth back to zero, `none` if the
window ends first.  `i` is the running index. -/
def bracketScan : List Char → Int → Nat → Option Nat
  | [], _, _ => none
  | c :: rest, depth, i =>
    if c = '[' then bracketScan rest (depth + 1) (i + 1)
    else if c = ']' then
      if depth - 1 = 0 then some (i + 1) else bracketScan rest (depth - 1) (i + 1)
    else bracketScan rest depth (i + 1)

/-- `isinstance(x, dict)`. -/
def isDictB : JVal → Bool
  | .obj _ => true
  | _ => false

/-- `k in x` for a decoded object `x` (dict key membership). -/
def hasFieldB (v : JVal) (k : String) : Bool :=
  match v with
  | .obj kvs => kvs.any (fun p => p.1 = k)
  | _ => false

/-- The validity filter of `read_raw_hotwords` lines 80–82:
`isinstance(hotwords, list) and len(hotwords) > 0` and
`isinstance(hotwords[0], dict)` and one of the fields `hw_id`, `key`,
`text` present in `hotwords[0]`.  Note only the first element is
inspected. -/
def acceptCandidate : JVal → Bool
  | .arr [] => false
  | .arr (h :: _) =>
    isDictB h && (hasFieldB h "hw_id" || hasFieldB h "key" || hasFieldB h "text")
  | _ => false

/-- One iteration of the scan loop: the candidate decoded at one
marker occurrence, `none` when the occurrence is discarded (no `[`
in the window, no matching `]`, decode failure, or the validity
filter rejects). -/
def scanAt (text : List Char) (pos : Nat) : Option (List JVal) :=
  match (window text pos).findIdx? (fun c => c = '[') with
  | none => none
  | some bstart =>
    match bracketScan ((window text pos).drop bstart) 0 0 with
    | none => none
    | some jlen =>
      match jsonLoads (String.mk (((window text pos).drop bstart).take jlen)) with
      | some (.arr l) => if acceptCandidate (.arr l) then some l else none
      | _ => none

/-- `all_hotwords` with provenance: each accepted candidate paired
with the marker offset it came from, in occurrence order. -/
def candidates (text : List Char) : List (Nat × List JVal) :=
  (hotwordPositions text).filterMap (fun p => (scanAt text p).map (fun l => (p, l)))

/-- Python `max(xs, key=len)`: iterates left to right and replaces the
running maximum only on a strictly larger length, so the first maximal
element wins. -/
def firstLongest : List (List JVal) → Option (List JVal)
  | [] => none
  | x :: xs => some (xs.foldl (fun best c => if best.length < c.length then c else best) x)

/-- `read_raw_hotwords`: the longest accepted candidate, `[]` when
there is none. -/
def read_raw_hotwords (text : List Char) : List JVal :=
  match firstLongest ((candidates text).map (fun pc => pc.2)) with
  | some l => l
  | none => []

/-! ## Mutation operations (`add_hotword`, `delete_hotword`) -/

/-- Python whitespace as stripped by `str.strip()` (the ASCII cases;
the rare non-ASCII Unicode space characters are not modelled). -/
def isPyWs (c : Char) : Bool :=
  c = ' ' || c = '\t' || c = '\n' || c = Char.ofNat 13 ||
    c = Char.ofNat 11 || c = Char.ofNat 12

/-- Python `s.strip()`: drop leading and trailing whitespace. -/
def pyStrip (s : String) : String :=
  String.mk (((s.data.dropWhile isPyWs).reverse.dropWhile isPyWs).reverse)

/-- `hw.get("key", "").strip()` on one decoded element; `none` models
the exception Python would raise (`hw` not a dict, or its `key` value
not a string).  Decoded objects have unique field names, so the
first-match lookup agrees with the dict lookup. -/
def strippedTrigger : JVal → Option String
  | .obj kvs =>
    match kvs.lookup "key" with
    | none => some ""
    | some (.str s) => some (pyStrip s)
    | some _ => none
  | _ => none

/-- What one `delete_hotword` invocation does: the collection it holds
at the end, how many entries went away, whether `kv.set` ran, and
whether the "not found" message path was taken. -/
structure DeleteOutcome where
  collection : List JVal
  removed : Nat
  wrote : Bool
  notFound : Bool

/-- The list comprehension of `delete_hotword`:
`[hw for hw in hotwords if hw.get("key", "").strip() != trigger_key]`,
given the per-element stripped keys. -/
def deleteKept (hws : List JVal) (triggerKey : String) (keys : List String) : List JVal :=
  (hws.zip keys).filterMap (fun ek => if ek.2 ≠ triggerKey then some ek.1 else none)

/-- `delete_hotword` of `wetype_raw.py` lines 221–246 (the same
filter-and-compare logic as `wetype_rw.py` lines 148–161), applied to
the already-read collection; `none` models an exception raised while
evaluating the filter comprehension.  On the not-found path the
function returns before `kv.set`, so nothing is written. -/
def delete_hotword (hws : List JVal) (triggerKey : String) : Option DeleteOutcome :=
  (hws.mapM strippedTrigger).map (fun keys =>
    if (deleteKept hws triggerKey keys).length = hws.length then
      ⟨deleteKept hws triggerKey keys, 0, false, true⟩
    else
      ⟨deleteKept hws triggerKey keys,
        hws.length - (deleteKept hws triggerKey keys).length, true, false⟩)

/-- The dict built by `add_hotword`: `hw_id` is
`str(int(time.time() * 1000))`, the current time in milliseconds
passed here explicitly. -/
def mkHotword (triggerKey text : String) (nowMs : Nat) : JVal :=
  .obj [("hw_id", .str (toString nowMs)), ("key", .str triggerKey), ("text", .str text)]

/-- Python `list.insert(i, x)` for `i ≤ len(l)`. -/
def pyInsert (l : List α) (i : Nat) (x : α) : List α :=
  l.take i ++ x :: l.drop i

/-- `add_hotword` of `wetype_raw.py` lines 190–219 (identically
`wetype_rw.py` lines 130–145): build the new dict, `insert(0, ...)`,
and the result is written unconditionally. -/
def add_hotword (hws : List JVal) (triggerKey text : String) (nowMs : Nat) : List JVal :=
  pyInsert hws 0 (mkHotword triggerKey text nowMs)

/-! ## Export objects -/

/-- The export object of `wetype_raw.py` / `wetype_rw.py`
(`export_hotwords`): exactly `exported_at`, `count`, `hotwords`. -/
def export_data (now : String) (hws : List JVal) : JVal :=
  .obj [("exported_at", .str now), ("count", .num hws.length), ("hotwords", .arr hws)]

/-- The export object of `wetype_tool.py` (`export_hotwords`): it also
carries a `source` field with the store path. -/
def export_data_tool (now source : String) (hws : List JVal) : JVal :=
  .obj [("exported_at", .str now), ("count", .num hws.length),
        ("source", .str source), ("hotwords", .arr hws)]

/-- Field names of an object, in order. -/
def objKeys : JVal → List String
  | .obj kvs => kvs.map (fun p => p.1)
  | _ => []

/-- Field access on an object. -/
def objGet (v : JVal) (k : String) : Option JVal :=
  match v with
  | .obj kvs => kvs.lookup k
  | _ => none

/-! ## Claims about the mutation operations -/

/-- C6: `add_hotword` always succeeds (it is a total function of the
collection, the trigger key, the body text and the current
millisecond time), prepends the new entry built by `insert(0, ...)`,
never inspects existing trigger keys, and the new entry's `hw_id` is
the string of the millisecond timestamp.  The resulting collection is
the new entry followed by all original entries in order, so its length
is the original length plus one and the new entry sits at position
zero. -/
theorem add_hotword_spec (hws : List JVal) (triggerKey text : String) (nowMs : Nat) :
    add_hotword hws triggerKey text nowMs = mkHotword triggerKey text nowMs :: hws ∧
    (add_hotword hws triggerKey text nowMs).length = hws.length + 1 ∧
    (add_hotword hws triggerKey text nowMs).head? = some (mkHotword triggerKey text nowMs) ∧
    (add_hotword hws triggerKey text nowMs).tail = hws ∧
    objGet (mkHotword triggerKey text nowMs) "hw_id" = some (.str (toString nowMs)) := by
  refine ⟨rfl, ?_, rfl, rfl, rfl⟩
  simp [add_hotword, pyInsert]

/-! ## Claims about the export object -/

/-- C9, counterexample: the export object built by
`export_hotwords` in `wetype_tool.py` carries a fourth field,
`source`, so its field list is not exactly
`exported_at`, `count`, `hotwords` as the claim states for every
successful export. -/
theorem export_tool_extra_source_field :
    "source" ∈ objKeys (export_data_tool "2024-01-01 00:00:00" "wetype.settings" []) ∧
    objKeys (export_data_tool "2024-01-01 00:00:00" "wetype.settings" [])
      ≠ ["exported_at", "count", "hotwords"] := by
  decide

/-- C9 (amended): the export objects of `wetype_raw.py` and
`wetype_rw.py` have exactly the fields `exported_at` (a timestamp
string), `count` (the number of exported entries) and `hotwords` (the
entry array in collection order), in that order and nothing else;
the export object of `wetype_tool.py` has exactly those three plus a
`source` field holding the store path, and its `count` also equals
the number of exported entries. -/
theorem export_object_fields (now source : String) (hws hws2 : List JVal) :
    objKeys (export_data now hws) = ["exported_at", "count", "hotwords"] ∧
    objGet (export_data now hws) "exported_at" = some (.str now) ∧
    objGet (export_data now hws) "count" = some (.num hws.length) ∧
    objGet (export_data now hws) "hotwords" = some (.arr hws) ∧
    objKeys (export_data_tool now source hws2)
      = ["exported_at", "count", "source", "hotwords"] ∧
    objGet (export_data_tool now source hws2) "count" = some (.num hws2.length) ∧
    objGet (export_data_tool now source hws2) "source" = some (.str source) := by
  refine ⟨rfl, rfl, rfl, rfl, rfl, rfl, rfl⟩

/-! ## Claims about the candidate validity filter -/

/-- C2, counterexample: a candidate that parses as the JSON list
`[{"key":"a"}, 5]` contains a non-map element, so by the claim it
should be discarded; the code accepts it (only the first element is
inspected) and the scan of a store text containing it returns it. -/
theorem scanner_accepts_nonmap_element :
    acceptCandidate (.arr [.obj [("key", .str "a")], .num 5]) = true ∧
    read_raw_hotwords ("hotWordList[\x7b\"key\":\"a\"\x7d,5]".data)
      = [.obj [("key", .str "a")], .num 5] ∧
    isDictB (.num 5) = false := by
  exact ⟨rfl, rfl, rfl⟩

/-- C2 (amended): a candidate that parses as a JSON list is accepted
exactly when the list is non-empty, its first element is a map, and
that first element has at least one of the recognized fields `hw_id`,
`key`, `text`; elements after the first are never inspected (the
filter's value does not depend on them). -/
theorem accept_checks_first_element_only (l : List JVal) :
    (acceptCandidate (.arr l) = true ↔
      ∃ h t, l = h :: t ∧ isDictB h = true ∧
        (hasFieldB h "hw_id" = true ∨ hasFieldB h "key" = true ∨
          hasFieldB h "text" = true)) ∧
    (∀ h t t', acceptCandidate (.arr (h :: t)) = acceptCandidate (.arr (h :: t'))) := by
  constructor
  · cases l with
    | nil => simp [acceptCandidate]
    | cons h t =>
      simp only [acceptCandidate, Bool.and_eq_true, Bool.or_eq_true]
      constructor
      · rintro ⟨hd, hf⟩
        exact ⟨h, t, rfl, hd, by tauto⟩
      · rintro ⟨h', t', heq, hd, hf⟩
        obtain ⟨rfl, rfl⟩ : h' = h ∧ t' = t := by
          constructor <;> [exact (List.cons.injEq .. ▸ heq).1.symm;
            exact (List.cons.injEq .. ▸ heq).2.symm]
        exact ⟨hd, by tauto⟩
  · intro h t t'
    rfl

/-! ## Claims about `delete_hotword` -/

/-- When the element-wise stripped keys all evaluate, the kept list of
`delete_hotword` is the filter of the collection by
"stripped trigger differs from the query". -/
theorem delete_kept_eq (tk : String) :
    ∀ (hws : List JVal) (keys : List String),
      hws.mapM strippedTrigger = some keys →
      deleteKept hws tk keys
        = hws.filter (fun e => strippedTrigger e ≠ some tk) := by
  intro hws
  induction hws with
  | nil =>
    intro keys h
    simp only [List.mapM_nil, pure, Option.some.injEq] at h
    subst h
    rfl
  | cons a t ih =>
    intro keys h
    rw [List.mapM_cons] at h
    cases ha : strippedTrigger a with
    | none => rw [ha] at h; simp at h
    | some b =>
      rw [ha] at h
      cases ht : t.mapM strippedTrigger with
      | none => rw [ht] at h; simp at h
      | some bs =>
        rw [ht] at h
        simp at h
        subst h
        have iht := ih bs ht
        by_cases hb : b = tk
        · subst hb
          simpa [deleteKept, List.filterMap_cons, List.filter_cons, ha] using iht
        · simpa [deleteKept, List.filterMap_cons, List.filter_cons, ha, hb] using iht

/-- The entries whose stripped key equals the query and those whose
stripped key differs partition the collection. -/
theorem filter_trigger_split (hws : List JVal) (tk : String) :
    (hws.filter (fun e => strippedTrigger e = some tk)).length +
      (hws.filter (fun e => strippedTrigger e ≠ some tk)).length = hws.length := by
  induction hws with
  | nil => rfl
  | cons a t ih =>
    rw [List.filter_cons, List.filter_cons]
    by_cases ha : strippedTrigger a = some tk
    · rw [if_pos (by simp [ha]), if_neg (by simp [ha])]
      simp only [List.length_cons]
      omega
    · rw [if_neg (by simp [ha]), if_pos (by simp [ha])]
      simp only [List.length_cons]
      omega

/-- C4: a successful `delete_hotword` keeps exactly the entries whose
whitespace-stripped trigger key differs from the (unstripped) query,
reports as removed the number of entries whose stripped key equals the
query, and takes the non-fatal "not found" message path precisely when
that number is zero. -/
theorem delete_hotword_spec (hws : List JVal) (tk : String) (out : DeleteOutcome)
    (h : delete_hotword hws tk = some out) :
    out.collection = hws.filter (fun e => strippedTrigger e ≠ some tk) ∧
    out.removed = (hws.filter (fun e => strippedTrigger e = some tk)).length ∧
    (out.notFound = true ↔ out.removed = 0) := by
  unfold delete_hotword at h
  cases hm : hws.mapM strippedTrigger with
  | none => rw [hm] at h; cases h
  | some keys =>
    rw [hm, Option.map_some'] at h
    have h2 := (Option.some.injEq _ _).mp h
    subst h2
    have hkept := delete_kept_eq tk hws keys hm
    have hsplit := filter_trigger_split hws tk
    by_cases hlen : (deleteKept hws tk keys).length = hws.length
    · rw [if_pos hlen]
      rw [hkept] at hlen
      refine ⟨hkept, ?_, by simp⟩
      show (0 : Nat) = (hws.filter (fun e => strippedTrigger e = some tk)).length
      omega
    · rw [if_neg hlen]
      rw [hkept] at hlen
      refine ⟨hkept, ?_, ?_⟩
      · show hws.length - (deleteKept hws tk keys).length
          = (hws.filter (fun e => strippedTrigger e = some tk)).length
        rw [hkept]
        omega
      · show (false = true)
          ↔ hws.length - (deleteKept hws tk keys).length = 0
        rw [hkept]
        simp only [Bool.false_eq_true, false_iff]
        omega

/-- C4, concrete instance: removing `"foo"` from
`[{"key":"foo ","text":"x"}, {"key":"bar","text":"y"}]` removes one
entry, since `"foo "` strips to `"foo"`. -/
theorem delete_hotword_spec_witness :
    (DeleteOutcome.mk [JVal.obj [("key", JVal.str "bar"), ("text", JVal.str "y")]]
        1 true false).removed
      = ([JVal.obj [("key", JVal.str "foo "), ("text", JVal.str "x")],
          JVal.obj [("key", JVal.str "bar"), ("text", JVal.str "y")]].filter
          (fun e => strippedTrigger e = some "foo")).length :=
  (delete_hotword_spec
    [JVal.obj [("key", JVal.str "foo "), ("text", JVal.str "x")],
     JVal.obj [("key", JVal.str "bar"), ("text", JVal.str "y")]]
    "foo"
    (DeleteOutcome.mk [JVal.obj [("key", JVal.str "bar"), ("text", JVal.str "y")]]
      1 true false)
    (by rfl)).2.1

/-- C5: when no entry's stripped trigger key equals the query,
`delete_hotword` leaves the collection element-for-element unchanged,
reports zero removed, takes the "not found" path and performs no write
(`kv.set` is never reached). -/
theorem delete_not_found_preserves (hws : List JVal) (tk : String) (out : DeleteOutcome)
    (h : delete_hotword hws tk = some out)
    (hnone : hws.all (fun e => strippedTrigger e ≠ some tk) = true) :
    out.collection = hws ∧ out.removed = 0 ∧ out.wrote = false ∧
      out.notFound = true := by
  unfold delete_hotword at h
  cases hm : hws.mapM strippedTrigger with
  | none => rw [hm] at h; cases h
  | some keys =>
    rw [hm, Option.map_some'] at h
    have h2 := (Option.some.injEq _ _).mp h
    subst h2
    have hkept := delete_kept_eq tk hws keys hm
    have hall : hws.filter (fun e => strippedTrigger e ≠ some tk) = hws := by
      apply List.filter_eq_self.mpr
      intro a ha
      exact (List.all_eq_true.mp hnone) a ha
    have hsame : deleteKept hws tk keys = hws := by rw [hkept, hall]
    rw [if_pos (by rw [hsame])]
    exact ⟨hsame, rfl, rfl, rfl⟩

/-- C5, concrete instance: removing the absent key `"zzz"` from a
one-entry collection leaves it unchanged. -/
theorem delete_not_found_preserves_witness :
    (DeleteOutcome.mk [JVal.obj [("key", JVal.str "foo "), ("text", JVal.str "x")]]
        0 false true).collection
      = [JVal.obj [("key", JVal.str "foo "), ("text", JVal.str "x")]] :=
  (delete_not_found_preserves
    [JVal.obj [("key", JVal.str "foo "), ("text", JVal.str "x")]]
    "zzz"
    (DeleteOutcome.mk [JVal.obj [("key", JVal.str "foo "), ("text", JVal.str "x")]]
      0 false true)
    (by rfl) (by rfl)).1

/-! ## Claims about the scanner and the selector -/

/-- Every accepted candidate is a non-empty decoded list (the validity
filter requires `len(hotwords) > 0`). -/
theorem scanAt_pos {text : List Char} {pos : Nat} {l : List JVal}
    (h : scanAt text pos = some l) : 0 < l.length := by
  unfold scanAt at h
  split at h
  · cases h
  · split at h
    · cases h
    · split at h
      · split at h
        · next hacc =>
          cases h
          cases l with
          | nil => simp [acceptCandidate] at hacc
          | cons a t => simp
        · cases h
      · cases h

/-- Membership in the candidate list comes from a successful scan at a
marker occurrence. -/
theorem mem_candidates {text : List Char} {pc : Nat × List JVal}
    (h : pc ∈ candidates text) :
    pc.1 ∈ hotwordPositions text ∧ scanAt text pc.1 = some pc.2 := by
  unfold candidates at h
  rcases List.mem_filterMap.mp h with ⟨p, hp, hg⟩
  rcases hs : scanAt text p with _ | l
  · rw [hs] at hg; cases hg
  · rw [hs] at hg
    simp only [Option.map_some', Option.some.injEq] at hg
    subst hg
    exact ⟨hp, hs⟩

/-- The running maximum of the length-maximum fold never shrinks below
the start value. -/
theorem foldl_longest_ge (xs : List (List JVal)) :
    ∀ x : List JVal,
      x.length ≤
        (xs.foldl (fun best c => if best.length < c.length then c else best) x).length := by
  induction xs with
  | nil => intro x; exact Nat.le_refl _
  | cons y ys ih =>
    intro x
    simp only [List.foldl_cons]
    refine Nat.le_trans ?_ (ih (if x.length < y.length then y else x))
    by_cases hxy : x.length < y.length
    · rw [if_pos hxy]; omega
    · rw [if_neg hxy]

/-- The result of the length-maximum fold is the start value or one of
the folded elements. -/
theorem foldl_longest_mem (xs : List (List JVal)) :
    ∀ x : List JVal,
      xs.foldl (fun best c => if best.length < c.length then c else best) x = x ∨
        xs.foldl (fun best c => if best.length < c.length then c else best) x ∈ xs := by
  induction xs with
  | nil => intro x; exact Or.inl rfl
  | cons y ys ih =>
    intro x
    simp only [List.foldl_cons]
    rcases ih (if x.length < y.length then y else x) with heq | hmem
    · rw [heq]
      by_cases hxy : x.length < y.length
      · rw [if_pos hxy]
        exact Or.inr (List.mem_cons_self _ _)
      · rw [if_neg hxy]
        exact Or.inl rfl
    · exact Or.inr (List.mem_cons_of_mem _ hmem)

/-- `read_raw_hotwords` on a text with at least one candidate is the
length-maximum fold over the decoded candidate lists. -/
theorem read_eq_foldl {text : List Char} {c : Nat × List JVal}
    {cs : List (Nat × List JVal)} (hcand : candidates text = c :: cs) :
    read_raw_hotwords text
      = (cs.map (fun pc => pc.2)).foldl
          (fun best d => if best.length < d.length then d else best) c.2 := by
  unfold read_raw_hotwords
  rw [hcand]
  rfl

/-- C10: the scanner never accepts an empty decoded array (every
candidate in the list is non-empty), and the scan result is empty
exactly when no candidate was accepted — so a store whose only values
for the key are empty arrays yields the same empty result as a store
with no value at all, and the selector can never return an empty
collection as the authoritative value. -/
theorem empty_arrays_never_selected (text : List Char) :
    ((candidates text).all (fun pc => 0 < pc.2.length)) = true ∧
    (read_raw_hotwords text = [] ↔ candidates text = []) ∧
    acceptCandidate (.arr []) = false := by
  have hall : ∀ pc ∈ candidates text, 0 < pc.2.length := fun pc hpc =>
    scanAt_pos (mem_candidates hpc).2
  refine ⟨List.all_eq_true.mpr (fun pc hpc => by simpa using hall pc hpc), ?_, rfl⟩
  constructor
  · intro hread
    rcases hx : candidates text with _ | ⟨c, cs⟩
    · rfl
    · exfalso
      have hread2 := read_eq_foldl hx
      have hge := foldl_longest_ge (cs.map (fun pc => pc.2)) c.2
      have hpos : 0 < c.2.length := hall c (by rw [hx]; exact List.mem_cons_self _ _)
      rw [← hread2, hread] at hge
      simp only [List.length_nil, Nat.le_zero] at hge
      omega
  · intro hempty
    unfold read_raw_hotwords
    rw [hempty]
    rfl

/-- C7: a decode failure at one occurrence never aborts the scan: the
scan is a total function; when the marker never occurs, or every
candidate fails decoding or validation, it reports the empty "no data"
result; and in every case it completes with either the empty result or
one of the successfully decoded candidates. -/
theorem scan_decode_failures_skipped (text : List Char) :
    (hotwordPositions text = [] → read_raw_hotwords text = []) ∧
    (candidates text = [] → read_raw_hotwords text = []) ∧
    (read_raw_hotwords text = [] ∨
      ∃ pc ∈ candidates text, read_raw_hotwords text = pc.2) := by
  have hempty : ∀ hc : candidates text = [], read_raw_hotwords text = [] := by
    intro hc
    unfold read_raw_hotwords
    rw [hc]
    rfl
  refine ⟨?_, hempty, ?_⟩
  · intro hp
    apply hempty
    unfold candidates
    rw [hp]
    rfl
  · rcases hx : candidates text with _ | ⟨c, cs⟩
    · exact Or.inl (hempty hx)
    · right
      have hread := read_eq_foldl hx
      rcases foldl_longest_mem (cs.map (fun pc => pc.2)) c.2 with heq | hmem
      · refine ⟨c, List.mem_cons_self _ _, by rw [hread, heq]⟩
      · rcases List.mem_map.mp hmem with ⟨pc, hpc, hfeq⟩
        refine ⟨pc, List.mem_cons_of_mem _ hpc, by rw [hread, ← hfeq]⟩

/-- C3: the candidate search at one occurrence looks only inside the
100000-character window that starts right after the matched marker —
text appended beyond that window cannot change the outcome — and an
occurrence with no opening bracket in the window, or whose balanced
match does not close inside the window, is discarded with no decode
attempt. -/
theorem scanner_window_bounded (text extra : List Char) (pos : Nat)
    (h : pos + keyMarker.length + 100000 ≤ text.length) :
    scanAt (text ++ extra) pos = scanAt text pos ∧
    window (text ++ extra) pos = window text pos ∧
    (∀ t p, (window t p).findIdx? (fun c => c = '[') = none → scanAt t p = none) ∧
    (∀ t p bstart, (window t p).findIdx? (fun c => c = '[') = some bstart →
      bracketScan ((window t p).drop bstart) 0 0 = none → scanAt t p = none) := by
  have hwin : window (text ++ extra) pos = window text pos := by
    unfold window
    rw [List.drop_append_of_le_length (by omega)]
    rw [List.take_append_of_le_length (by simp [List.length_drop]; omega)]
  refine ⟨?_, hwin, ?_, ?_⟩
  · unfold scanAt
    rw [hwin]
  · intro t p hfind
    unfold scanAt
    split
    · rfl
    · next heq =>
      rw [hfind] at heq
      cases heq
  · intro t p bstart hfind hscan
    unfold scanAt
    split
    · rfl
    · next bstart' heq =>
      rw [hfind] at heq
      cases heq
      split
      · rfl
      · next jlen heq2 =>
        rw [hscan] at heq2
        cases heq2

/-- The length-maximum fold result is at least as long as every
element of the folded list and the start value. -/
theorem foldl_longest_max (xs : List (List JVal)) :
    ∀ x y, y ∈ x :: xs →
      y.length ≤
        (xs.foldl (fun best c => if best.length < c.length then c else best) x).length := by
  induction xs with
  | nil =>
    intro x y hy
    rcases List.mem_singleton.mp hy with rfl
    exact Nat.le_refl _
  | cons z zs ih =>
    intro x y hy
    simp only [List.foldl_cons]
    rcases List.mem_cons.mp hy with rfl | hy2
    · refine Nat.le_trans ?_
        (ih (if y.length < z.length then z else y) _ (List.mem_cons_self _ _))
      by_cases hxz : y.length < z.length
      · rw [if_pos hxz]; omega
      · rw [if_neg hxz]
    · rcases List.mem_cons.mp hy2 with rfl | hy3
      · refine Nat.le_trans ?_
          (ih (if x.length < y.length then y else x) _ (List.mem_cons_self _ _))
        by_cases hxz : x.length < y.length
        · rw [if_pos hxz]
        · rw [if_neg hxz]; omega
      · exact ih _ y (List.mem_cons_of_mem _ hy3)

/-- Python `max(..., key=len)` keeps the first element attaining the
maximal length: the fold's result sits at an index all of whose
strictly earlier elements are strictly shorter. -/
theorem foldl_longest_first (xs : List (List JVal)) :
    ∀ x : List JVal,
      ∃ i, i < (x :: xs).length ∧
        (x :: xs).getD i []
            = xs.foldl (fun best c => if best.length < c.length then c else best) x ∧
        ∀ j, j < i →
          ((x :: xs).getD j []).length
            < (xs.foldl (fun best c => if best.length < c.length then c else best) x).length := by
  induction xs with
  | nil =>
    intro x
    exact ⟨0, by simp, rfl, fun j hj => absurd hj (Nat.not_lt_zero j)⟩
  | cons y ys ih =>
    intro x
    simp only [List.foldl_cons]
    by_cases hxy : x.length < y.length
    · rw [if_pos hxy]
      rcases ih y with ⟨i, hi, hget, hmin⟩
      refine ⟨i + 1, by simpa using hi, hget, ?_⟩
      intro j hj
      cases j with
      | zero =>
        have hgey := foldl_longest_ge ys y
        show x.length
          < ((ys.foldl (fun best c => if best.length < c.length then c else best) y)).length
        omega
      | succ k =>
        exact hmin k (by omega)
    · rw [if_neg hxy]
      rcases ih x with ⟨i, hi, hget, hmin⟩
      cases i with
      | zero =>
        exact ⟨0, by simp, hget, fun j hj => absurd hj (Nat.not_lt_zero j)⟩
      | succ k =>
        refine ⟨k + 2, by simpa using hi, hget, ?_⟩
        intro j hj
        cases j with
        | zero =>
          exact hmin 0 (by omega)
        | succ j' =>
          cases j' with
          | zero =>
            have hx := hmin 0 (by omega)
            show y.length
              < ((ys.foldl (fun best c => if best.length < c.length then c else best) x)).length
            have hxlt : x.length
                < ((ys.foldl (fun best c => if best.length < c.length then c else best) x)).length := hx
            omega
          | succ j'' =>
            exact hmin (j'' + 1) (by omega)

/-- Projecting the second component commutes with positional access on
the candidate list. -/
theorem getD_map_snd (l : List (Nat × List JVal)) :
    ∀ i, i < l.length →
      (l.map (fun q => q.2)).getD i []
        = (l.getD i ((0 : Nat), ([] : List JVal))).2 := by
  induction l with
  | nil => intro i hi; exact absurd hi (Nat.not_lt_zero i)
  | cons a t ih =>
    intro i hi
    cases i with
    | zero => rfl
    | succ k => exact ih k (by simpa using hi)

/-- The scanner's candidate list carries strictly increasing
occurrence offsets (the positions are produced in increasing order and
the scan preserves each candidate's provenance). -/
theorem pairwise_candidates (text : List Char) :
    (candidates text).Pairwise (fun a b => a.1 < b.1) := by
  unfold candidates
  have hps : (hotwordPositions text).Pairwise (· < ·) := by
    unfold hotwordPositions
    exact (List.pairwise_lt_range _).filter _
  revert hps
  generalize hotwordPositions text = ps
  induction ps with
  | nil => intro _; simp
  | cons p t ih =>
    intro hpw
    rw [List.pairwise_cons] at hpw
    rw [List.filterMap_cons]
    rcases hs : scanAt text p with _ | l
    · exact ih hpw.2
    · simp only [Option.map_some']
      rw [List.pairwise_cons]
      refine ⟨?_, ih hpw.2⟩
      intro b hb
      rcases List.mem_filterMap.mp hb with ⟨q, hq, hgq⟩
      rcases hsq : scanAt text q with _ | lq
      · rw [hsq] at hgq; cases hgq
      · rw [hsq] at hgq
        simp only [Option.map_some', Option.some.injEq] at hgq
        subst hgq
        exact hpw.1 q hq

/-- C1: whenever at least one candidate decodes and passes the
validity filter, the selected result is at least as long as every
candidate, and it is the candidate at the first index attaining the
maximal length; since the candidate list is ordered by strictly
increasing occurrence offset, ties are broken in favour of the
earliest offset, making selection deterministic. -/
theorem selector_longest_earliest (text : List Char) (h : candidates text ≠ []) :
    (∀ pc ∈ candidates text, pc.2.length ≤ (read_raw_hotwords text).length) ∧
    (candidates text).Pairwise (fun a b => a.1 < b.1) ∧
    ∃ i, i < (candidates text).length ∧
      read_raw_hotwords text = ((candidates text).getD i ((0 : Nat), [])).2 ∧
      ∀ j, j < i →
        (((candidates text).getD j ((0 : Nat), [])).2).length
          < (read_raw_hotwords text).length := by
  obtain ⟨c, cs, hcand⟩ : ∃ c cs, candidates text = c :: cs := by
    cases hx : candidates text with
    | nil => exact absurd hx h
    | cons c cs => exact ⟨c, cs, rfl⟩
  have hread := read_eq_foldl hcand
  refine ⟨?_, pairwise_candidates text, ?_⟩
  · intro pc hpc
    rw [hread]
    have hmem : pc.2 ∈ c.2 :: cs.map (fun q => q.2) := by
      rw [hcand] at hpc
      rcases List.mem_cons.mp hpc with rfl | h2
      · exact List.mem_cons_self _ _
      · exact List.mem_cons_of_mem _ (List.mem_map.mpr ⟨pc, h2, rfl⟩)
    exact foldl_longest_max (cs.map fun q => q.2) c.2 pc.2 hmem
  · rcases foldl_longest_first (cs.map fun q => q.2) c.2 with ⟨i, hi, hget, hmin⟩
    have hmap : (candidates text).map (fun q => q.2) = c.2 :: cs.map (fun q => q.2) := by
      rw [hcand]
      rfl
    rw [← hmap] at hi hget hmin
    have hlen : i < (candidates text).length := by simpa using hi
    refine ⟨i, hlen, ?_, ?_⟩
    · rw [hread, ← hget]
      exact getD_map_snd (candidates text) i hlen
    · intro j hj
      have hjlen : j < (candidates text).length := by omega
      rw [hread, ← getD_map_snd (candidates text) j hjlen]
      exact hmin j hj

/-- C1, concrete instance: with two equal-length candidates at offsets
0 and 29, the selected result is at least as long as the first
candidate (and the theorem pins it to the earliest offset). -/
theorem selector_longest_earliest_witness :
    ((0 : Nat), [JVal.obj [("key", JVal.str "first")]]).2.length
      ≤ (read_raw_hotwords
          ("hotWordList.[\x7b\"key\":\"first\"\x7d]hotWordList.[\x7b\"key\":\"second\"\x7d]x".data)).length := by
  have h := selector_longest_earliest
    ("hotWordList.[\x7b\"key\":\"first\"\x7d]hotWordList.[\x7b\"key\":\"second\"\x7d]x".data)
    (by
      intro hemp
      exact List.cons_ne_nil _ _
        ((show candidates
            ("hotWordList.[\x7b\"key\":\"first\"\x7d]hotWordList.[\x7b\"key\":\"second\"\x7d]x".data)
          = ((0 : Nat), [JVal.obj [("key", JVal.str "first")]])
            :: [((29 : Nat), [JVal.obj [("key", JVal.str "second")]])] from rfl) ▸ hemp))
  exact h.1 ((0 : Nat), [JVal.obj [("key", JVal.str "first")]])
    ((show candidates
        ("hotWordList.[\x7b\"key\":\"first\"\x7d]hotWordList.[\x7b\"key\":\"second\"\x7d]x".data)
      = ((0 : Nat), [JVal.obj [("key", JVal.str "first")]])
        :: [((29 : Nat), [JVal.obj [("key", JVal.str "second")]])] from rfl) ▸
      List.mem_cons_self _ _)

/-- C3, concrete instance: on a text longer than the window, appending
an opening bracket after the window does not change the scan at the
first offset. -/
theorem scanner_window_bounded_witness :
    scanAt (List.replicate 100011 'x' ++ ['[']) 0 = scanAt (List.replicate 100011 'x') 0 :=
  (scanner_window_bounded (List.replicate 100011 'x') ['['] 0
    (by rw [List.length_replicate]; decide)).1

/-! ## Round-trip of the JSON codec (claim C8): character-level facts -/

/-- `Char.ofNat` below the surrogate range keeps the code point. -/
theorem toNat_ofNat_small (n : Nat) (h : n < 55296) : (Char.ofNat n).toNat = n := by
  unfold Char.ofNat
  split
  · rfl
  · next hval =>
    exfalso
    apply hval
    constructor
    omega

/-- `Char.ofNat` inverts `Char.toNat` for control characters. -/
theorem ofNat_toNat_ctrl (c : Char) (h : c.toNat < 32) : Char.ofNat c.toNat = c := by
  apply Char.ext
  apply UInt32.ext
  exact toNat_ofNat_small _ (by omega)

/-- The hexadecimal digit printer and reader invert each other. -/
theorem hexVal_hexChar (k : Nat) (h : k < 16) : hexVal (hexChar k) = some k := by
  unfold hexChar hexVal
  by_cases h10 : k < 10
  · rw [if_pos h10]
    rw [toNat_ofNat_small (48 + k) (by omega)]
    rw [if_pos (by omega)]
    congr 1
    omega
  · rw [if_neg h10]
    rw [toNat_ofNat_small (87 + k) (by omega)]
    rw [if_neg (by omega), if_pos (by omega)]
    congr 1
    omega

/-- The decimal digit character of `k < 10` is a digit character. -/
theorem isDigitCh_digitChar (k : Nat) (h : k < 10) : isDigitCh (digitChar k) = true := by
  unfold isDigitCh digitChar
  rw [toNat_ofNat_small (48 + k) (by omega)]
  simp
  omega

/-- Character class facts about decimal digit characters, used to
drive the parser's dispatch. -/
theorem isDigitCh_props (c : Char) (h : isDigitCh c = true) :
    ((c = '[') = False) ∧ ((c = lcb) = False) ∧ ((c = qt) = False) ∧
      isJsonWs c = false ∧ ((c = '-') = False) ∧ ((c = ']') = False) := by
  unfold isDigitCh at h
  simp only [Bool.and_eq_true, decide_eq_true_eq] at h
  have h48 : 48 ≤ c.toNat := h.1
  have h57 : c.toNat ≤ 57 := h.2
  refine ⟨?_, ?_, ?_, ?_, ?_, ?_⟩
  · simp only [eq_iff_iff, iff_false]
    intro hc; subst hc; simp at h48 h57
  · simp only [eq_iff_iff, iff_false]
    intro hc; subst hc; simp [lcb] at h48 h57
  · simp only [eq_iff_iff, iff_false]
    intro hc; subst hc; simp [qt] at h48 h57
  · unfold isJsonWs
    simp only [Bool.or_eq_false_iff, decide_eq_false_iff_not]
    refine ⟨⟨⟨?_, ?_⟩, ?_⟩, ?_⟩ <;>
      · intro hc; subst hc; simp at h48 h57
  · simp only [eq_iff_iff, iff_false]
    intro hc; subst hc; simp at h48 h57
  · simp only [eq_iff_iff, iff_false]
    intro hc; subst hc; simp at h48 h57

/-- Dropping leading whitespace leaves a non-whitespace-headed list
unchanged. -/
theorem skipWs_cons_neg {c : Char} (t : List Char) (h : isJsonWs c = false) :
    skipWs (c :: t) = c :: t := by
  unfold skipWs
  rw [List.dropWhile_cons, if_neg (by simp [h])]

/-- Dropping leading whitespace absorbs one whitespace character. -/
theorem skipWs_cons_pos {c : Char} (t : List Char) (h : isJsonWs c = true) :
    skipWs (c :: t) = skipWs t := by
  unfold skipWs
  rw [List.dropWhile_cons, if_pos (by simp [h])]

/-- The value parser ignores one leading whitespace character. -/
theorem parseValue_ws {c0 : Char} (h : isJsonWs c0 = true) :
    ∀ fuel cs, parseValue fuel (c0 :: cs) = parseValue fuel cs := by
  intro fuel cs
  cases fuel with
  | zero => rfl
  | succ f =>
    show (match skipWs (c0 :: cs) with
      | [] => none
      | c :: rest =>
        if c = '[' then parseElemsStart f rest
        else if c = lcb then parseFieldsStart f rest
        else if c = qt then
          match parseStrAux (rest.length + 1) [] rest with
          | some (s, r) => some (.str s, r)
          | none => none
        else if c = '-' ∨ isDigitCh c then parseNumber (c :: rest)
        else if matchesAt "true".data (c :: rest) then some (.bool true, (c :: rest).drop 4)
        else if matchesAt "false".data (c :: rest) then some (.bool false, (c :: rest).drop 5)
        else if matchesAt "null".data (c :: rest) then some (.null, (c :: rest).drop 4)
        else none) = _
    rw [skipWs_cons_pos cs h]
    rfl

/-- Reading back one printed string body: the escapes produced by
`dumpChar` are exactly undone by the string parser, and the parse
stops at the closing quote. -/
theorem parseStrAux_rt (s : List Char) :
    ∀ fuel acc rest, s.length + 1 ≤ fuel →
      parseStrAux fuel acc (dumpStrBody s ++ qt :: rest)
        = some (String.mk (acc.reverse ++ s), rest) := by
  induction s with
  | nil =>
    intro fuel acc rest hf
    obtain ⟨f, rfl⟩ : ∃ f, fuel = f + 1 := ⟨fuel - 1, by omega⟩
    simp [dumpStrBody, parseStrAux]
  | cons c cs ih =>
    intro fuel acc rest hf
    obtain ⟨f, rfl⟩ : ∃ f, fuel = f + 1 := ⟨fuel - 1, by omega⟩
    have hf2 : cs.length + 1 ≤ f := by
      simp only [List.length_cons] at hf
      omega
    show parseStrAux (f + 1) acc ((dumpChar c ++ dumpStrBody cs) ++ qt :: rest) = _
    rw [List.append_assoc]
    by_cases h1 : c = qt
    · subst h1
      rw [show dumpChar qt = [bsl, qt] from by rw [dumpChar, if_pos rfl]]
      simp only [List.cons_append, List.nil_append]
      rw [show ∀ X, parseStrAux (f + 1) acc (bsl :: qt :: X)
          = parseStrAux f (qt :: acc) X from fun X => by
        simp +decide [parseStrAux, parseEsc]]
      rw [ih f (qt :: acc) rest hf2]
      simp
    · by_cases h2 : c = bsl
      · subst h2
        rw [show dumpChar bsl = [bsl, bsl] from by
          rw [dumpChar, if_neg (by decide), if_pos rfl]]
        simp only [List.cons_append, List.nil_append]
        rw [show ∀ X, parseStrAux (f + 1) acc (bsl :: bsl :: X)
            = parseStrAux f (bsl :: acc) X from fun X => by
          simp +decide [parseStrAux, parseEsc]]
        rw [ih f (bsl :: acc) rest hf2]
        simp
      · by_cases h3 : c = Char.ofNat 8
        · subst h3
          rw [show dumpChar (Char.ofNat 8) = [bsl, 'b'] from by
            rw [dumpChar, if_neg (by decide), if_neg (by decide), if_pos rfl]]
          simp only [List.cons_append, List.nil_append]
          rw [show ∀ X, parseStrAux (f + 1) acc (bsl :: 'b' :: X)
              = parseStrAux f (Char.ofNat 8 :: acc) X from fun X => by
            simp +decide [parseStrAux, parseEsc]]
          rw [ih f (Char.ofNat 8 :: acc) rest hf2]
          simp
        · by_cases h4 : c = Char.ofNat 12
          · subst h4
            rw [show dumpChar (Char.ofNat 12) = [bsl, 'f'] from by
              rw [dumpChar, if_neg (by decide), if_neg (by decide),
                if_neg (by decide), if_pos rfl]]
            simp only [List.cons_append, List.nil_append]
            rw [show ∀ X, parseStrAux (f + 1) acc (bsl :: 'f' :: X)
                = parseStrAux f (Char.ofNat 12 :: acc) X from fun X => by
              simp +decide [parseStrAux, parseEsc]]
            rw [ih f (Char.ofNat 12 :: acc) rest hf2]
            simp
          · by_cases h5 : c = '\n'
            · subst h5
              rw [show dumpChar '\n' = [bsl, 'n'] from by
                rw [dumpChar, if_neg (by decide), if_neg (by decide),
                  if_neg (by decide), if_neg (by decide), if_pos rfl]]
              simp only [List.cons_append, List.nil_append]
              rw [show ∀ X, parseStrAux (f + 1) acc (bsl :: 'n' :: X)
                  = parseStrAux f ('\n' :: acc) X from fun X => by
                simp +decide [parseStrAux, parseEsc]]
              rw [ih f ('\n' :: acc) rest hf2]
              simp
            · by_cases h6 : c = Char.ofNat 13
              · subst h6
                rw [show dumpChar (Char.ofNat 13) = [bsl, 'r'] from by
                  rw [dumpChar, if_neg (by decide), if_neg (by decide),
                    if_neg (by decide), if_neg (by decide), if_neg (by decide),
                    if_pos rfl]]
                simp only [List.cons_append, List.nil_append]
                rw [show ∀ X, parseStrAux (f + 1) acc (bsl :: 'r' :: X)
                    = parseStrAux f (Char.ofNat 13 :: acc) X from fun X => by
                  simp +decide [parseStrAux, parseEsc]]
                rw [ih f (Char.ofNat 13 :: acc) rest hf2]
                simp
              · by_cases h7 : c = '\t'
                · subst h7
                  rw [show dumpChar '\t' = [bsl, 't'] from by
                    rw [dumpChar, if_neg (by decide), if_neg (by decide),
                      if_neg (by decide), if_neg (by decide), if_neg (by decide),
                      if_neg (by decide), if_pos rfl]]
                  simp only [List.cons_append, List.nil_append]
                  rw [show ∀ X, parseStrAux (f + 1) acc (bsl :: 't' :: X)
                      = parseStrAux f ('\t' :: acc) X from fun X => by
                    simp +decide [parseStrAux, parseEsc]]
                  rw [ih f ('\t' :: acc) rest hf2]
                  simp
                · by_cases h8 : c.toNat < 32
                  · rw [show dumpChar c
                        = [bsl, 'u', '0', '0', hexChar (c.toNat / 16),
                            hexChar (c.toNat % 16)] from by
                      rw [dumpChar, if_neg h1, if_neg h2, if_neg h3, if_neg h4,
                        if_neg h5, if_neg h6, if_neg h7, if_pos h8]]
                    simp only [List.cons_append, List.nil_append]
                    have hstep : ∀ X, parseStrAux (f + 1) acc
                        (bsl :: 'u' :: '0' :: '0' :: hexChar (c.toNat / 16)
                          :: hexChar (c.toNat % 16) :: X)
                        = parseStrAux f (c :: acc) X := by
                      intro X
                      have hdiv : hexVal (hexChar (c.toNat / 16)) = some (c.toNat / 16) :=
                        hexVal_hexChar _ (by omega)
                      have hmod : hexVal (hexChar (c.toNat % 16)) = some (c.toNat % 16) :=
                        hexVal_hexChar _ (by omega)
                      have h00 : hexVal '0' = some 0 := rfl
                      have hval : ((0 * 16 + 0) * 16 + c.toNat / 16) * 16 + c.toNat % 16
                          = c.toNat := by omega
                      simp +decide [parseStrAux, parseEsc, parseUEsc, parseHex4,
                        hdiv, hmod, h00]
                      rw [show (c.toNat / 16 * 16 + c.toNat % 16) = c.toNat from by omega]
                      rw [if_neg (by omega), if_neg (by omega)]
                      rw [ofNat_toNat_ctrl c h8]
                    rw [hstep]
                    rw [ih f (c :: acc) rest hf2]
                    simp
                  · rw [show dumpChar c = [c] from by
                      rw [dumpChar, if_neg h1, if_neg h2, if_neg h3, if_neg h4,
                        if_neg h5, if_neg h6, if_neg h7, if_neg h8]]
                    simp only [List.cons_append, List.nil_append]
                    have hstep : ∀ X, parseStrAux (f + 1) acc (c :: X)
                        = parseStrAux f (c :: acc) X := by
                      intro X
                      rw [show parseStrAux (f + 1) acc (c :: X)
                          = if c = qt then some (String.mk acc.reverse, X)
                            else if c = bsl then
                              match parseEsc X with
                              | none => none
                              | some (ch, rest2) => parseStrAux f (ch :: acc) rest2
                            else if c.toNat < 32 then none
                            else parseStrAux f (c :: acc) X from rfl]
                      rw [if_neg h1, if_neg h2, if_neg h8]
                    rw [hstep]
                    rw [ih f (c :: acc) rest hf2]
                    simp

/-- The printed digits of a natural number form a non-empty run whose
first digit is `0` only for the number zero. -/
theorem natChars_cons (m : Nat) :
    ∃ d ds, natChars m = d :: ds ∧ isDigitCh d = true ∧ (d = '0' → m = 0) := by
  by_cases h : m < 10
  · refine ⟨digitChar m, [], ?_, isDigitCh_digitChar m h, ?_⟩
    · rw [natChars, dif_pos h]
    · intro hd
      have h2 := congrArg Char.toNat hd
      unfold digitChar at h2
      rw [toNat_ofNat_small (48 + m) (by omega)] at h2
      have h3 : ('0').toNat = 48 := by decide
      omega
  · obtain ⟨d, ds, hds, hdig, hmsd⟩ := natChars_cons (m / 10)
    refine ⟨d, ds ++ [digitChar (m % 10)], ?_, hdig, ?_⟩
    · rw [natChars, dif_neg h, hds]
      rfl
    · intro hd
      have := hmsd hd
      omega
termination_by m
decreasing_by exact Nat.div_lt_self (by omega) (by omega)

/-- Every printed digit character is a digit. -/
theorem natChars_digits (m : Nat) : ∀ c ∈ natChars m, isDigitCh c = true := by
  by_cases h : m < 10
  · rw [natChars, dif_pos h]
    intro c hc
    rcases List.mem_singleton.mp hc with rfl
    exact isDigitCh_digitChar m h
  · rw [natChars, dif_neg h]
    intro c hc
    rcases List.mem_append.mp hc with hc1 | hc2
    · exact natChars_digits (m / 10) c hc1
    · rcases List.mem_singleton.mp hc2 with rfl
      exact isDigitCh_digitChar _ (by omega)
termination_by m
decreasing_by exact Nat.div_lt_self (by omega) (by omega)

/-- Reading the printed digits of a natural number gives it back. -/
theorem digitsVal_natChars (m : Nat) : digitsVal (natChars m) = m := by
  by_cases h : m < 10
  · rw [natChars, dif_pos h]
    show 10 * 0 + ((digitChar m).toNat - 48) = m
    unfold digitChar
    rw [toNat_ofNat_small (48 + m) (by omega)]
    omega
  · rw [natChars, dif_neg h]
    unfold digitsVal
    rw [List.foldl_append]
    show 10 * (digitsVal (natChars (m / 10))) + ((digitChar (m % 10)).toNat - 48) = m
    rw [digitsVal_natChars (m / 10)]
    unfold digitChar
    rw [toNat_ofNat_small (48 + m % 10) (by omega)]
    omega
termination_by m
decreasing_by exact Nat.div_lt_self (by omega) (by omega)

/-- A list whose head (when present) is not a digit. -/
def headNotDigit : List Char → Prop
  | [] => True
  | c :: _ => isDigitCh c = false

/-- Splitting a digit run followed by a non-digit boundary. -/
theorem span_digits (xs : List Char) (hxs : ∀ c ∈ xs, isDigitCh c = true) :
    ∀ ys, headNotDigit ys →
      (xs ++ ys).takeWhile isDigitCh = xs ∧ (xs ++ ys).dropWhile isDigitCh = ys := by
  induction xs with
  | nil =>
    intro ys hys
    cases ys with
    | nil => exact ⟨rfl, rfl⟩
    | cons y t =>
      constructor
      · rw [List.nil_append, List.takeWhile_cons,
          if_neg (by simp [show isDigitCh y = false from hys])]
      · rw [List.nil_append, List.dropWhile_cons,
          if_neg (by simp [show isDigitCh y = false from hys])]
  | cons x t ih =>
    intro ys hys
    have hx : isDigitCh x = true := hxs x (List.mem_cons_self _ _)
    have ht : ∀ c ∈ t, isDigitCh c = true := fun c hc => hxs c (List.mem_cons_of_mem _ hc)
    obtain ⟨h1, h2⟩ := ih ht ys hys
    constructor
    · rw [List.cons_append, List.takeWhile_cons, if_pos (by simp [hx]), h1]
    · rw [List.cons_append, List.dropWhile_cons, if_pos (by simp [hx]), h2]

/-- The separators that can legally follow a printed value: end of
input, a comma, a closing bracket, or a closing brace. -/
def sepB : List Char → Bool
  | [] => true
  | c :: _ => c = ',' || c = ']' || c = rcb

/-- A legal separator head is not a digit. -/
theorem sepB_headNotDigit (rest : List Char) (h : sepB rest = true) :
    headNotDigit rest := by
  cases rest with
  | nil => trivial
  | cons c t =>
    show isDigitCh c = false
    unfold sepB at h
    simp only [Bool.or_eq_true, decide_eq_true_eq] at h
    rcases h with (h | h) | h <;> subst h <;> decide

/-- Reading back a printed non-negative number at a separator
boundary. -/
theorem parseNumDigits_natChars (neg : Bool) (m : Nat) (rest : List Char)
    (hsep : sepB rest = true) :
    parseNumDigits neg (natChars m ++ rest)
      = some (.num (if neg then -(m : Int) else (m : Int)), rest) := by
  obtain ⟨d, ds, hds, hdig, hmsd⟩ := natChars_cons m
  obtain ⟨htake, hdrop⟩ :=
    span_digits (natChars m) (natChars_digits m) rest (sepB_headNotDigit rest hsep)
  unfold parseNumDigits
  rw [htake, hdrop]
  rw [if_neg (by rw [hds]; simp)]
  have hlead : (matchesAt ['0'] (natChars m)
      && decide ((natChars m).length > 1)) = false := by
    by_cases hd0 : d = '0'
    · have hm0 := hmsd hd0
      subst hm0
      rw [show natChars 0 = ['0'] from by rw [natChars, dif_pos (by omega)]; decide]
      simp
    · rw [hds]
      have : ('0' = d) = False := by
        simp only [eq_iff_iff, iff_false]
        intro hx
        exact hd0 hx.symm
      simp [matchesAt, this]
  rw [hlead]
  simp only [Bool.false_eq_true, if_false]
  rw [digitsVal_natChars m]
  cases rest with
  | nil => rfl
  | cons c t =>
    unfold sepB at hsep
    simp only [Bool.or_eq_true, decide_eq_true_eq] at hsep
    rcases hsep with (h | h) | h <;> subst h <;>
      exact if_neg (by decide)

/-- Reading back any printed integer at a separator boundary. -/
theorem parseNumber_intChars (n : Int) (rest : List Char) (hsep : sepB rest = true) :
    parseNumber (intChars n ++ rest) = some (.num n, rest) := by
  cases n with
  | ofNat m =>
    obtain ⟨d, ds, hds, hdig, hmsd⟩ := natChars_cons m
    show parseNumber (natChars m ++ rest) = some (.num (m : Int), rest)
    rw [hds, List.cons_append]
    show (if d = '-' then parseNumDigits true (ds ++ rest)
      else parseNumDigits false (d :: ds ++ rest)) = _
    rw [if_neg (by
      intro hx
      subst hx
      exact absurd hdig (by decide))]
    rw [show (d :: ds ++ rest) = (d :: ds) ++ rest from rfl, ← hds]
    rw [parseNumDigits_natChars false m rest hsep]
    rfl
  | negSucc m =>
    show parseNumber (Char.ofNat 45 :: natChars (m + 1) ++ rest) = _
    rw [List.cons_append]
    show (if Char.ofNat 45 = '-' then parseNumDigits true (natChars (m + 1) ++ rest)
      else parseNumDigits false (Char.ofNat 45 :: (natChars (m + 1) ++ rest))) = _
    rw [if_pos (by decide)]
    rw [parseNumDigits_natChars true (m + 1) rest hsep]
    have heq : -(((m + 1 : Nat) : Int)) = Int.negSucc m := by
      rw [Int.negSucc_eq]
      norm_cast
    simp [heq]
    omega

/-- Printed numbers are never empty. -/
theorem natChars_ne_nil (m : Nat) : 1 ≤ (natChars m).length := by
  obtain ⟨d, ds, hds, _, _⟩ := natChars_cons m
  rw [hds]
  simp

/-- Every printed value starts with a character that is neither
whitespace nor a closing bracket. -/
theorem dumpsV_head (v : JVal) :
    ∃ c cs, dumpsV v = c :: cs ∧ isJsonWs c = false ∧ ((c = ']') = False) := by
  cases v with
  | null => exact ⟨'n', ['u', 'l', 'l'], by simp [dumpsV], by decide, by decide⟩
  | bool b =>
    cases b with
    | true => exact ⟨'t', ['r', 'u', 'e'], by simp [dumpsV], by decide, by decide⟩
    | false => exact ⟨'f', ['a', 'l', 's', 'e'], by simp [dumpsV], by decide, by decide⟩
  | num n =>
    cases n with
    | ofNat m =>
      obtain ⟨d, ds, hds, hdig, _⟩ := natChars_cons m
      have hp := isDigitCh_props d hdig
      exact ⟨d, ds, by simp [dumpsV, intChars, hds], hp.2.2.2.1, hp.2.2.2.2.2⟩
    | negSucc m =>
      exact ⟨Char.ofNat 45, natChars (m + 1), by simp [dumpsV, intChars],
        by decide, by decide⟩
  | str s =>
    exact ⟨qt, dumpStrBody s.data ++ [qt], by simp [dumpsV, dumpStr],
      by decide, by decide⟩
  | arr es =>
    exact ⟨'[', dumpsElems es ++ [']'], by simp [dumpsV], by decide, by decide⟩
  | obj fs =>
    exact ⟨lcb, dumpsFields fs ++ [rcb], by simp [dumpsV], by decide, by decide⟩

/-- Escaping a character never produces the empty string. -/
theorem dumpChar_len (c : Char) : 1 ≤ (dumpChar c).length := by
  unfold dumpChar
  repeat' split
  all_goals simp

/-- The escaped body is at least as long as the source string. -/
theorem dumpStrBody_len (s : List Char) : s.length ≤ (dumpStrBody s).length := by
  induction s with
  | nil => simp [dumpStrBody]
  | cons c cs ih =>
    have h := dumpChar_len c
    simp only [dumpStrBody, List.length_append, List.length_cons]
    omega

/-- A comma may follow a value. -/
theorem sepB_comma (x : List Char) : sepB (',' :: x) = true := by simp [sepB]

/-- A closing bracket may follow a value. -/
theorem sepB_rb (x : List Char) : sepB (']' :: x) = true := by simp [sepB]

/-- A closing brace may follow a value. -/
theorem sepB_rcb (x : List Char) : sepB (rcb :: x) = true := by simp [sepB]

/-- One unfold of the array-element loop. -/
theorem parseElemsLoop_eq (f : Nat) (acc : List JVal) (cs : List Char) :
    parseElemsLoop (f + 1) acc cs
      = (match parseValue f cs with
        | none => none
        | some (v, rest) =>
          match skipWs rest with
          | [] => none
          | c :: r2 =>
            if c = ']' then some (.arr (acc ++ [v]), r2)
            else if c = ',' then parseElemsLoop f (acc ++ [v]) r2
            else none) := rfl

/-- One unfold of the object-field loop. -/
theorem parseFieldsLoop_eq (f : Nat) (acc : List (String × JVal)) (cs : List Char) :
    parseFieldsLoop (f + 1) acc cs
      = (match skipWs cs with
        | c :: rest =>
          if c = qt then
            match parseStrAux (rest.length + 1) [] rest with
            | none => none
            | some (k, r1) =>
              match skipWs r1 with
              | [] => none
              | c1 :: r2 =>
                if c1 = ':' then
                  match parseValue f r2 with
                  | none => none
                  | some (v, r3) =>
                    match skipWs r3 with
                    | [] => none
                    | c2 :: r4 =>
                      if c2 = rcb then some (.obj (acc ++ [(k, v)]), r4)
                      else if c2 = ',' then parseFieldsLoop f (acc ++ [(k, v)]) r4
                      else none
                else none
          else none
        | [] => none) := rfl

/-- The element loop ignores one leading space. -/
theorem parseElemsLoop_ws (f : Nat) (acc : List JVal) (cs : List Char) :
    parseElemsLoop f acc (' ' :: cs) = parseElemsLoop f acc cs := by
  cases f with
  | zero => rfl
  | succ f2 =>
    rw [parseElemsLoop_eq, parseElemsLoop_eq, parseValue_ws (by decide) f2 cs]

/-- The field loop ignores one leading space. -/
theorem parseFieldsLoop_ws (f : Nat) (acc : List (String × JVal)) (cs : List Char) :
    parseFieldsLoop f acc (' ' :: cs) = parseFieldsLoop f acc cs := by
  cases f with
  | zero => rfl
  | succ f2 =>
    rw [parseFieldsLoop_eq, parseFieldsLoop_eq,
      skipWs_cons_pos cs (by decide)]

/-- The value parser dispatches a digit head to the number parser. -/
theorem parseValue_digit (f : Nat) (d : Char) (X : List Char)
    (hd : isDigitCh d = true) :
    parseValue (f + 1) (d :: X) = parseNumber (d :: X) := by
  have hp := isDigitCh_props d hd
  show (match skipWs (d :: X) with
    | [] => none
    | c :: rest =>
      if c = '[' then parseElemsStart f rest
      else if c = lcb then parseFieldsStart f rest
      else if c = qt then
        match parseStrAux (rest.length + 1) [] rest with
        | some (s, r) => some (.str s, r)
        | none => none
      else if c = '-' ∨ isDigitCh c then parseNumber (c :: rest)
      else if matchesAt "true".data (c :: rest) then some (.bool true, (c :: rest).drop 4)
      else if matchesAt "false".data (c :: rest) then some (.bool false, (c :: rest).drop 5)
      else if matchesAt "null".data (c :: rest) then some (.null, (c :: rest).drop 4)
      else none) = parseNumber (d :: X)
  rw [skipWs_cons_neg X hp.2.2.2.1]
  show (if d = '[' then parseElemsStart f X
    else if d = lcb then parseFieldsStart f X
    else if d = qt then
      match parseStrAux (X.length + 1) [] X with
      | some (s, r) => some (.str s, r)
      | none => none
    else if d = '-' ∨ isDigitCh d then parseNumber (d :: X)
    else if matchesAt "true".data (d :: X) then some (.bool true, (d :: X).drop 4)
    else if matchesAt "false".data (d :: X) then some (.bool false, (d :: X).drop 5)
    else if matchesAt "null".data (d :: X) then some (.null, (d :: X).drop 4)
    else none) = parseNumber (d :: X)
  rw [if_neg (by simp [hp.1]), if_neg (by simp [hp.2.1]), if_neg (by simp [hp.2.2.1]),
    if_pos (Or.inr hd)]

/-- The value parser hands `[` to the array parser. -/
theorem parseValue_arr (f : Nat) (X : List Char) :
    parseValue (f + 1) ('[' :: X) = parseElemsStart f X := by
  simp +decide [parseValue, skipWs, List.dropWhile, isJsonWs]

/-- The value parser hands the opening brace to the object parser. -/
theorem parseValue_obj (f : Nat) (X : List Char) :
    parseValue (f + 1) (lcb :: X) = parseFieldsStart f X := by
  simp +decide [parseValue, skipWs, List.dropWhile, isJsonWs]

/-- The value parser hands a quote to the string parser. -/
theorem parseValue_str (f : Nat) (X : List Char) :
    parseValue (f + 1) (qt :: X)
      = (match parseStrAux (X.length + 1) [] X with
        | some (s, r) => some (.str s, r)
        | none => none) := by
  simp +decide [parseValue, skipWs, List.dropWhile, isJsonWs]

/-- The value parser hands a minus sign to the number parser. -/
theorem parseValue_minus (f : Nat) (X : List Char) :
    parseValue (f + 1) ('-' :: X) = parseNumber ('-' :: X) := by
  simp +decide [parseValue, skipWs, List.dropWhile, isJsonWs]

/-- The value parser reads a `null` literal. -/
theorem parseValue_null (f : Nat) (X : List Char) :
    parseValue (f + 1) ('n' :: 'u' :: 'l' :: 'l' :: X) = some (.null, X) := by
  simp +decide [parseValue, skipWs, List.dropWhile, matchesAt, isDigitCh, isJsonWs]

/-- The value parser reads a `true` literal. -/
theorem parseValue_true (f : Nat) (X : List Char) :
    parseValue (f + 1) ('t' :: 'r' :: 'u' :: 'e' :: X) = some (.bool true, X) := by
  simp +decide [parseValue, skipWs, List.dropWhile, matchesAt, isDigitCh, isJsonWs]

/-- The value parser reads a `false` literal. -/
theorem parseValue_false (f : Nat) (X : List Char) :
    parseValue (f + 1) ('f' :: 'a' :: 'l' :: 's' :: 'e' :: X) = some (.bool false, X) := by
  simp +decide [parseValue, skipWs, List.dropWhile, matchesAt, isDigitCh, isJsonWs]

/-- An immediate `]` closes an empty array. -/
theorem parseElemsStart_rb (f : Nat) (X : List Char) :
    parseElemsStart (f + 1) (']' :: X) = some (.arr [], X) := by
  simp +decide [parseElemsStart, skipWs, List.dropWhile, isJsonWs]

/-- An immediate closing brace closes an empty object. -/
theorem parseFieldsStart_rcb (f : Nat) (X : List Char) :
    parseFieldsStart (f + 1) (rcb :: X) = some (.obj [], X) := by
  simp +decide [parseFieldsStart, skipWs, List.dropWhile, isJsonWs]

/-- A non-bracket head sends the array parser into its element loop. -/
theorem parseElemsStart_go (f : Nat) (c : Char) (X : List Char)
    (hws : isJsonWs c = false) (hrb : (c = ']') = False) :
    parseElemsStart (f + 1) (c :: X) = parseElemsLoop f [] (c :: X) := by
  show (match skipWs (c :: X) with
    | [] => none
    | c' :: rest =>
      if c' = ']' then some (JVal.arr [], rest)
      else parseElemsLoop f [] (c' :: rest)) = _
  rw [skipWs_cons_neg X hws]
  show (if c = ']' then some (JVal.arr [], X) else parseElemsLoop f [] (c :: X)) = _
  rw [if_neg (by simp [hrb])]

/-- A non-brace head sends the object parser into its field loop. -/
theorem parseFieldsStart_go (f : Nat) (c : Char) (X : List Char)
    (hws : isJsonWs c = false) (hrb : (c = rcb) = False) :
    parseFieldsStart (f + 1) (c :: X) = parseFieldsLoop f [] (c :: X) := by
  show (match skipWs (c :: X) with
    | c' :: rest =>
      if c' = rcb then some (JVal.obj [], rest)
      else parseFieldsLoop f [] (c' :: rest)
    | [] => none) = _
  rw [skipWs_cons_neg X hws]
  show (if c = rcb then some (JVal.obj [], X) else parseFieldsLoop f [] (c :: X)) = _
  rw [if_neg (by simp [hrb])]

mutual

/-- Parsing back a printed value at a legal separator boundary
reproduces the value exactly. -/
theorem parseValue_rt : ∀ (v : JVal) (fuel : Nat) (rest : List Char),
    3 * (dumpsV v).length + 1 ≤ fuel → sepB rest = true →
      parseValue fuel (dumpsV v ++ rest) = some (v, rest)
  | JVal.null, fuel, rest, hf, _ => by
    obtain ⟨f, rfl⟩ : ∃ f, fuel = f + 1 := ⟨fuel - 1, by omega⟩
    rw [show dumpsV JVal.null = ['n', 'u', 'l', 'l'] from by simp [dumpsV]]
    exact parseValue_null f rest
  | JVal.bool true, fuel, rest, hf, _ => by
    obtain ⟨f, rfl⟩ : ∃ f, fuel = f + 1 := ⟨fuel - 1, by omega⟩
    rw [show dumpsV (JVal.bool true) = ['t', 'r', 'u', 'e'] from by simp [dumpsV]]
    exact parseValue_true f rest
  | JVal.bool false, fuel, rest, hf, _ => by
    obtain ⟨f, rfl⟩ : ∃ f, fuel = f + 1 := ⟨fuel - 1, by omega⟩
    rw [show dumpsV (JVal.bool false) = ['f', 'a', 'l', 's', 'e'] from by
      simp [dumpsV]]
    exact parseValue_false f rest
  | JVal.num (Int.ofNat m), fuel, rest, hf, hsep => by
    obtain ⟨f, rfl⟩ : ∃ f, fuel = f + 1 := ⟨fuel - 1, by omega⟩
    rw [show dumpsV (JVal.num (Int.ofNat m)) = intChars (Int.ofNat m) from by
      simp [dumpsV]]
    obtain ⟨d, ds, hds, hdig, _⟩ := natChars_cons m
    rw [show intChars (Int.ofNat m) = natChars m from rfl, hds, List.cons_append,
      parseValue_digit f d (ds ++ rest) hdig, ← List.cons_append, ← hds]
    exact parseNumber_intChars (Int.ofNat m) rest hsep
  | JVal.num (Int.negSucc m), fuel, rest, hf, hsep => by
    obtain ⟨f, rfl⟩ : ∃ f, fuel = f + 1 := ⟨fuel - 1, by omega⟩
    rw [show dumpsV (JVal.num (Int.negSucc m)) = intChars (Int.negSucc m) from by
      simp [dumpsV]]
    rw [show intChars (Int.negSucc m) = '-' :: natChars (m + 1) from rfl]
    rw [List.cons_append, parseValue_minus f (natChars (m + 1) ++ rest)]
    have h := parseNumber_intChars (Int.negSucc m) rest hsep
    rw [show intChars (Int.negSucc m) = '-' :: natChars (m + 1) from rfl,
      List.cons_append] at h
    exact h
  | JVal.str s, fuel, rest, hf, _ => by
    obtain ⟨f, rfl⟩ : ∃ f, fuel = f + 1 := ⟨fuel - 1, by omega⟩
    rw [show dumpsV (JVal.str s) = qt :: (dumpStrBody s.data ++ [qt]) from by
      simp [dumpsV, dumpStr]]
    rw [List.cons_append, parseValue_str f ((dumpStrBody s.data ++ [qt]) ++ rest),
      List.append_assoc, List.singleton_append]
    rw [parseStrAux_rt s.data ((dumpStrBody s.data ++ qt :: rest).length + 1) [] rest
      (by
        have := dumpStrBody_len s.data
        simp only [List.length_append, List.length_cons]
        omega)]
    dsimp only
    simp
  | JVal.arr [], fuel, rest, hf, _ => by
    obtain ⟨f, rfl⟩ : ∃ f, fuel = f + 1 := ⟨fuel - 1, by omega⟩
    rw [show dumpsV (JVal.arr []) = ['[', ']'] from by
      simp [dumpsV, dumpsElems]] at hf ⊢
    rw [show (['[', ']'] : List Char) ++ rest = '[' :: (']' :: rest) from rfl,
      parseValue_arr]
    obtain ⟨f2, rfl⟩ : ∃ f2, f = f2 + 1 := ⟨f - 1, by simp at hf; omega⟩
    exact parseElemsStart_rb f2 rest
  | JVal.arr (v :: vs), fuel, rest, hf, _ => by
    obtain ⟨f, rfl⟩ : ∃ f, fuel = f + 1 := ⟨fuel - 1, by omega⟩
    rw [show dumpsV (JVal.arr (v :: vs))
        = '[' :: (dumpsElems (v :: vs) ++ [']']) from by simp [dumpsV]] at hf ⊢
    rw [List.cons_append, parseValue_arr, List.append_assoc, List.singleton_append]
    obtain ⟨f2, rfl⟩ : ∃ f2, f = f2 + 1 :=
      ⟨f - 1, by simp [List.length_append] at hf; omega⟩
    obtain ⟨c, cs, hdE, hws, hrb⟩ :
        ∃ c cs, dumpsElems (v :: vs) = c :: cs ∧ isJsonWs c = false ∧
          ((c = ']') = False) := by
      obtain ⟨c, cs, hv, hws, hrb⟩ := dumpsV_head v
      cases vs with
      | nil => exact ⟨c, cs, by simp [dumpsElems, hv], hws, hrb⟩
      | cons v2 vs2 =>
        exact ⟨c, cs ++ ',' :: ' ' :: dumpsElems (v2 :: vs2),
          by simp [dumpsElems, hv], hws, hrb⟩
    rw [hdE, List.cons_append, parseElemsStart_go f2 c _ hws hrb,
      ← List.cons_append, ← hdE]
    refine parseElems_rt vs v f2 [] rest ?_
    simp [List.length_append] at hf ⊢
    omega
  | JVal.obj [], fuel, rest, hf, _ => by
    obtain ⟨f, rfl⟩ : ∃ f, fuel = f + 1 := ⟨fuel - 1, by omega⟩
    rw [show dumpsV (JVal.obj []) = [lcb, rcb] from by
      simp [dumpsV, dumpsFields]] at hf ⊢
    rw [show ([lcb, rcb] : List Char) ++ rest = lcb :: (rcb :: rest) from rfl,
      parseValue_obj]
    obtain ⟨f2, rfl⟩ : ∃ f2, f = f2 + 1 := ⟨f - 1, by simp at hf; omega⟩
    exact parseFieldsStart_rcb f2 rest
  | JVal.obj ((k, v) :: fs2), fuel, rest, hf, _ => by
    obtain ⟨f, rfl⟩ : ∃ f, fuel = f + 1 := ⟨fuel - 1, by omega⟩
    rw [show dumpsV (JVal.obj ((k, v) :: fs2))
        = lcb :: (dumpsFields ((k, v) :: fs2) ++ [rcb]) from by
      simp [dumpsV]] at hf ⊢
    rw [List.cons_append, parseValue_obj, List.append_assoc, List.singleton_append]
    obtain ⟨f2, rfl⟩ : ∃ f2, f = f2 + 1 :=
      ⟨f - 1, by simp [List.length_append] at hf; omega⟩
    obtain ⟨cs, hdF⟩ : ∃ cs, dumpsFields ((k, v) :: fs2) = qt :: cs := by
      cases fs2 with
      | nil =>
        exact ⟨(dumpStrBody k.data ++ [qt]) ++ ':' :: ' ' :: dumpsV v,
          by simp [dumpsFields, dumpStr]⟩
      | cons p2 fs3 =>
        exact ⟨(dumpStrBody k.data ++ [qt]) ++ ':' :: ' ' :: dumpsV v
            ++ ',' :: ' ' :: dumpsFields (p2 :: fs3),
          by simp [dumpsFields, dumpStr]⟩
    rw [hdF, List.cons_append, parseFieldsStart_go f2 qt _ (by decide) (by decide),
      ← List.cons_append, ← hdF]
    refine parseFields_rt fs2 k v f2 [] rest ?_
    simp [List.length_append] at hf ⊢
    omega
termination_by v _ _ _ _ => sizeOf v

/-- Parsing back the printed elements of a non-empty array. -/
theorem parseElems_rt : ∀ (vs : List JVal) (v : JVal) (fuel : Nat)
    (acc : List JVal) (rest : List Char),
    3 * (dumpsElems (v :: vs)).length + 3 ≤ fuel →
      parseElemsLoop fuel acc (dumpsElems (v :: vs) ++ ']' :: rest)
        = some (.arr (acc ++ v :: vs), rest)
  | [], v, fuel, acc, rest, hf => by
    obtain ⟨f, rfl⟩ : ∃ f, fuel = f + 1 := ⟨fuel - 1, by omega⟩
    rw [parseElemsLoop_eq]
    rw [show dumpsElems [v] = dumpsV v from by simp [dumpsElems]] at hf ⊢
    rw [parseValue_rt v f (']' :: rest) (by omega) (sepB_rb rest)]
    dsimp only
    rw [skipWs_cons_neg rest (by decide)]
    dsimp only
    rw [if_pos rfl]
  | (v2 :: vs2), v, fuel, acc, rest, hf => by
    obtain ⟨f, rfl⟩ : ∃ f, fuel = f + 1 := ⟨fuel - 1, by omega⟩
    rw [parseElemsLoop_eq]
    rw [show dumpsElems (v :: v2 :: vs2)
        = dumpsV v ++ ',' :: ' ' :: dumpsElems (v2 :: vs2) from by
      simp [dumpsElems]] at hf ⊢
    simp only [List.append_assoc, List.cons_append]
    rw [parseValue_rt v f (',' :: (' ' :: (dumpsElems (v2 :: vs2) ++ ']' :: rest)))
      (by simp [List.length_append] at hf ⊢; omega) (sepB_comma _)]
    dsimp only
    rw [skipWs_cons_neg _ (by decide)]
    dsimp only
    rw [if_neg (by decide), if_pos rfl, parseElemsLoop_ws]
    rw [parseElems_rt vs2 v2 f (acc ++ [v]) rest
      (by simp [List.length_append] at hf ⊢; omega)]
    simp
termination_by vs v _ _ _ _ => sizeOf v + sizeOf vs

/-- Parsing back the printed fields of a non-empty object. -/
theorem parseFields_rt : ∀ (fs : List (String × JVal)) (k : String) (v : JVal)
    (fuel : Nat) (acc : List (String × JVal)) (rest : List Char),
    3 * (dumpsFields ((k, v) :: fs)).length + 3 ≤ fuel →
      parseFieldsLoop fuel acc (dumpsFields ((k, v) :: fs) ++ rcb :: rest)
        = some (.obj (acc ++ (k, v) :: fs), rest)
  | [], k, v, fuel, acc, rest, hf => by
    obtain ⟨f, rfl⟩ : ∃ f, fuel = f + 1 := ⟨fuel - 1, by omega⟩
    rw [parseFieldsLoop_eq]
    rw [show dumpsFields [(k, v)] = dumpStr k ++ ':' :: ' ' :: dumpsV v from by
      simp [dumpsFields]] at hf ⊢
    rw [show dumpStr k = qt :: (dumpStrBody k.data ++ [qt]) from rfl] at hf ⊢
    simp only [List.cons_append, List.append_assoc, List.singleton_append,
      List.nil_append]
    rw [skipWs_cons_neg _ (by decide)]
    dsimp only
    rw [if_pos rfl]
    rw [parseStrAux_rt k.data _ [] (':' :: (' ' :: (dumpsV v ++ rcb :: rest)))
      (by
        have := dumpStrBody_len k.data
        simp only [List.length_append, List.length_cons]
        omega)]
    dsimp only
    rw [skipWs_cons_neg _ (by decide)]
    dsimp only
    rw [if_pos rfl, parseValue_ws (by decide) f (dumpsV v ++ rcb :: rest)]
    rw [parseValue_rt v f (rcb :: rest)
      (by simp [List.length_append, List.length_cons] at hf ⊢; omega)
      (sepB_rcb rest)]
    dsimp only
    rw [skipWs_cons_neg _ (by decide)]
    dsimp only
    rw [if_pos rfl]
    simp
  | ((k2, v2) :: fs3), k, v, fuel, acc, rest, hf => by
    obtain ⟨f, rfl⟩ : ∃ f, fuel = f + 1 := ⟨fuel - 1, by omega⟩
    rw [parseFieldsLoop_eq]
    rw [show dumpsFields ((k, v) :: (k2, v2) :: fs3)
        = dumpStr k ++ ':' :: ' ' :: dumpsV v
            ++ ',' :: ' ' :: dumpsFields ((k2, v2) :: fs3)
        from by simp [dumpsFields]] at hf ⊢
    rw [show dumpStr k = qt :: (dumpStrBody k.data ++ [qt]) from rfl] at hf ⊢
    simp only [List.cons_append, List.append_assoc, List.singleton_append,
      List.nil_append]
    rw [skipWs_cons_neg _ (by decide)]
    dsimp only
    rw [if_pos rfl]
    rw [parseStrAux_rt k.data _ []
      (':' :: (' ' :: (dumpsV v
        ++ ',' :: ' ' :: (dumpsFields ((k2, v2) :: fs3) ++ rcb :: rest))))
      (by
        have := dumpStrBody_len k.data
        simp only [List.length_append, List.length_cons]
        omega)]
    dsimp only
    rw [skipWs_cons_neg _ (by decide)]
    dsimp only
    rw [if_pos rfl,
      parseValue_ws (by decide) f
        (dumpsV v ++ ',' :: ' ' :: (dumpsFields ((k2, v2) :: fs3) ++ rcb :: rest))]
    rw [parseValue_rt v f
      (',' :: (' ' :: (dumpsFields ((k2, v2) :: fs3) ++ rcb :: rest)))
      (by simp [List.length_append, List.length_cons] at hf ⊢; omega)
      (sepB_comma _)]
    dsimp only
    rw [skipWs_cons_neg _ (by decide)]
    dsimp only
    rw [if_neg (by decide), if_pos rfl, parseFieldsLoop_ws]
    rw [show String.mk (List.reverse ([] : List Char) ++ k.data) = k from rfl]
    rw [parseFields_rt fs3 k2 v2 f (acc ++ [(k, v)]) rest
      (by simp [List.length_append, List.length_cons] at hf ⊢; omega)]
    simp
termination_by fs _ v _ _ _ _ => sizeOf v + sizeOf fs

end

/-- C8: round-trip — encoding a decoded entry collection with the writer's
printer (`json.dumps(..., ensure_ascii=False)`) and decoding the blob again
with `json.loads` reproduces the collection exactly: same element count and
every field of every entry (trigger key, body text, id, timestamp) preserved
verbatim. -/
theorem encode_decode_roundtrip (col : List JVal) :
    jsonLoads (jsonDumps (JVal.arr col)) = some (JVal.arr col) := by
  have h := parseValue_rt (JVal.arr col) (3 * (dumpsV (JVal.arr col)).length + 3) []
    (by omega) rfl
  rw [List.append_nil] at h
  unfold jsonLoads jsonDumps
  rw [show (String.mk (dumpsV (JVal.arr col))).data = dumpsV (JVal.arr col) from rfl, h]
  simp [skipWs]

end Wetype
